import Mathlib

/-!
# Verification of the Gutenberg Word Explorer text-analysis core

Shallow embedding of the text-normalization and frequency-ranking routines
of `src/books/views.py` (functions `clean_text_to_words`,
`compute_top_words`, `extract_title_from_gutenberg`, `fetch_gutenberg_text`,
the `STOPWORDS` set) together with a small state model of the persistence
step of `book_search_view` backed by the `Book` / `WordFrequency` models.

Python strings are modelled as lists of characters (`PyStr`); the embedding
covers the ASCII fragment of Python's Unicode-aware string primitives
(`str.lower`, `str.isalpha`, `str.split`), which is the fragment the
repository's behaviour is specified over.
-/

namespace Gutenberg

/-- Python strings are modelled as lists of characters. -/
abbrev PyStr := List Char

/-- The characters Python's `str.split()` (no separator) treats as
whitespace, restricted to ASCII: space, tab, newline, carriage return,
vertical tab (11) and form feed (12). -/
def pyIsSpace (c : Char) : Bool :=
  c = ' ' || c = '\t' || c = '\n' || c = '\r' || c = Char.ofNat 11 || c = Char.ofNat 12

/-- `text.lower()` on the ASCII fragment: lowercase each character.
`Char.toLower` maps `A`-`Z` to `a`-`z` and fixes everything else, which is
exactly Python's `str.lower` on ASCII text. -/
def pyLower (s : PyStr) : PyStr := s.map Char.toLower

/-- The character class replaced by spaces in `clean_text_to_words`
(views.py line 75): the Python literal `",.;:!?\"'()[]{}-_*/\\\n\r\t"`.
Code 39 is the apostrophe, 123 and 125 are the curly braces. -/
def charsToReplace : PyStr :=
  [',', '.', ';', ':', '!', '?', '"', Char.ofNat 39, '(', ')', '[', ']',
   Char.ofNat 123, Char.ofNat 125, '-', '_', '*', '/', '\\', '\n', '\r', '\t']

/-- `text.replace(ch, " ")` for a single character `ch`: each occurrence of
`ch` becomes one space. -/
def pyReplaceChar (ch : Char) (s : PyStr) : PyStr :=
  s.map (fun d => if d = ch then ' ' else d)

/-- The `for ch in chars_to_replace: text = text.replace(ch, " ")` loop of
`clean_text_to_words` (views.py lines 76-77). -/
def replaceAll (s : PyStr) : PyStr :=
  charsToReplace.foldl (fun acc ch => pyReplaceChar ch acc) s

/-- Accumulator-style splitter: `cur` is the (reversed) pending token.
Tokens are maximal runs of non-whitespace characters; empty tokens are
never produced, matching Python's `str.split()` with no argument. -/
def pySplitAux : PyStr → PyStr → List PyStr
  | [], cur => if cur = [] then [] else [cur.reverse]
  | c :: cs, cur =>
    if pyIsSpace c then
      if cur = [] then pySplitAux cs [] else cur.reverse :: pySplitAux cs []
    else pySplitAux cs (c :: cur)

/-- Python's `text.split()`: split on runs of whitespace, dropping empty
pieces (views.py line 80). -/
def pySplit (s : PyStr) : List PyStr := pySplitAux s []

/-- Python's `w.isalpha()`: nonempty and every character alphabetic
(ASCII fragment). Note `"".isalpha()` is `False` in Python. -/
def pyIsAlphaStr (w : PyStr) : Bool := !w.isEmpty && w.all Char.isAlpha

/-- The `STOPWORDS` set of views.py lines 19-59, transcribed verbatim.
Python set membership is order-insensitive, so a list with decidable
membership is a faithful model. -/
def STOPWORDS : List PyStr :=
  ([ -- pronouns
     "i", "you", "he", "she", "it", "we", "they",
     "me", "him", "her", "us", "them",
     "my", "your", "yours", "his", "its", "our", "ours", "their", "theirs",
     -- articles / determiners
     "a", "an", "the", "this", "that", "these", "those",
     -- coordinating conjunctions
     "and", "or", "but", "so", "yet", "for", "nor",
     -- subordinating conjunctions
     "because", "although", "since", "while", "as", "if", "when", "though", "which",
     -- prepositions
     "in", "on", "at", "by", "to", "from", "of", "off", "out",
     "over", "under", "up", "down", "with", "without", "into",
     "about", "before", "after", "between", "through", "during",
     -- auxiliary verbs
     "is", "am", "are", "was", "were", "be", "been", "being",
     "have", "has", "had", "do", "does", "did",
     "can", "could", "shall", "should", "will", "would",
     "may", "might", "must",
     -- adverbs / fillers
     "very", "just", "then", "there", "here", "again", "like",
     "now", "how", "where", "why", "who", "what",
     -- common verbs
     "go", "went", "come", "came", "said", "took", "get", "got",
     "make", "made", "see", "saw", "know", "take", "give", "gave",
     -- quantifiers
     "all", "any", "some", "no", "not",
     "away",
     -- common numbers
     "one", "two", "three"
   ] : List String).map String.data

/-- The filtering condition of the comprehension in `clean_text_to_words`
(views.py lines 82-85): `w.isalpha() and w not in STOPWORDS and len(w) > 1`. -/
def keepWord (w : PyStr) : Bool :=
  pyIsAlphaStr w && !(decide (w ∈ STOPWORDS)) && decide (1 < w.length)

/-- `clean_text_to_words` (views.py lines 62-86): lowercase, replace the
fixed character class by spaces, split on whitespace, filter. -/
def clean_text_to_words (text : PyStr) : List PyStr :=
  (pySplit (replaceAll (pyLower text))).filter keepWord

/-! ## Frequency ranking: `Counter` and `most_common`

`compute_top_words` builds `Counter(words)` and returns
`counts.most_common(limit)` (views.py lines 128-140).  A `Counter` is a
dict keyed by word in order of first occurrence, mapping each word to its
occurrence count; `most_common(n)` sorts the items by descending count
with a stable sort (CPython's `heapq.nlargest` decorates each item with
its position, so ties keep insertion order) and truncates to `n`. -/

/-- Keys of `Counter(l)` in insertion order: the elements of `l` with
later duplicates removed.  `seen` is the set of keys already emitted. -/
def dedupFirstAux : List PyStr → List PyStr → List PyStr
  | [], _ => []
  | w :: ws, seen =>
    if w ∈ seen then dedupFirstAux ws seen
    else w :: dedupFirstAux ws (w :: seen)

/-- Keys of `Counter(l)` in first-occurrence order. -/
def dedupFirst (l : List PyStr) : List PyStr := dedupFirstAux l []

/-- Occurrence count of `w` in `tokens`: the multiplicity a `Counter`
records for key `w`. -/
def countOcc (tokens : List PyStr) (w : PyStr) : Nat :=
  (tokens.filter (fun x => x = w)).length

/-- The items of `Counter(tokens)`: each distinct word, in first-occurrence
order, paired with its occurrence count. -/
def counterItems (tokens : List PyStr) : List (PyStr × Nat) :=
  (dedupFirst tokens).map (fun w => (w, countOcc tokens w))

/-- Stable descending insertion by count: `x` is placed before the first
entry whose count is `≤` its own, i.e. after exactly the earlier entries
with strictly greater count.  Since the sort below feeds entries in list
order, this reproduces the stability of Python's sort. -/
def insertDesc (x : PyStr × Nat) : List (PyStr × Nat) → List (PyStr × Nat)
  | [] => [x]
  | y :: ys => if y.2 ≤ x.2 then x :: y :: ys else y :: insertDesc x ys

/-- Stable sort by descending count, as performed by
`Counter.most_common` (equivalent to `sorted(items, key=count,
reverse=True)`, which is stable). -/
def sortDesc : List (PyStr × Nat) → List (PyStr × Nat)
  | [] => []
  | x :: xs => insertDesc x (sortDesc xs)

/-- The counting-and-ranking step of `compute_top_words`:
`Counter(tokens).most_common(limit)`. -/
def topWords (tokens : List PyStr) (limit : Nat) : List (PyStr × Nat) :=
  (sortDesc (counterItems tokens)).take limit

/-- `compute_top_words` (views.py lines 128-140). -/
def compute_top_words (text : PyStr) (limit : Nat) : List (PyStr × Nat) :=
  topWords (clean_text_to_words text) limit

/-! ## Title extraction (`extract_title_from_gutenberg`) -/

/-- Python's `str.splitlines()` restricted to the line boundaries that can
occur in the pipeline's ASCII fragment: `\n`, `\r\n` and `\r`.  Boundaries
are not kept, and a trailing boundary does not produce a final empty line.
`acc` is the (reversed) current line. -/
def splitlinesAux : PyStr → PyStr → List PyStr
  | [], acc => if acc = [] then [] else [acc.reverse]
  | '\r' :: '\n' :: rest, acc => acc.reverse :: splitlinesAux rest []
  | '\n' :: rest, acc => acc.reverse :: splitlinesAux rest []
  | '\r' :: rest, acc => acc.reverse :: splitlinesAux rest []
  | c :: rest, acc => splitlinesAux rest (c :: acc)

/-- `text.splitlines()` (views.py line 120). -/
def splitlines (text : PyStr) : List PyStr := splitlinesAux text []

/-- `line.lower().startswith("title:")` (views.py line 121). -/
def startsTitle (line : PyStr) : Bool :=
  List.isPrefixOf "title:".data (pyLower line)

/-- Python's `str.strip()`: drop leading and trailing whitespace. -/
def pyStrip (s : PyStr) : PyStr :=
  ((s.dropWhile pyIsSpace).reverse.dropWhile pyIsSpace).reverse

/-- `line.split(":", 1)[1].strip()` (views.py line 123): everything after
the first colon, stripped.  The view only evaluates this on lines that
start (case-insensitively) with `"title:"`, so a colon is present. -/
def afterFirstColonStripped (line : PyStr) : PyStr :=
  pyStrip ((line.dropWhile (fun c => c ≠ ':')).drop 1)

/-- The line scan of `extract_title_from_gutenberg` (views.py lines
120-125): first matching line wins, otherwise the fallback label. -/
def findTitle : List PyStr → PyStr
  | [] => "Unknown Title".data
  | line :: rest =>
    if startsTitle line then afterFirstColonStripped line else findTitle rest

/-- `extract_title_from_gutenberg` (views.py lines 111-125). -/
def extract_title_from_gutenberg (text : PyStr) : PyStr :=
  findTitle (splitlines text)

/-! ## Fetch collaborator (`fetch_gutenberg_text`)

The function performs network I/O; its computational content is the
exception routing of the `try`/`except` at views.py lines 99-108.  We model
one call to `urllib.request.urlopen(url)` plus `read()`/`decode` by its
outcome.  Per CPython's documented behaviour, `urlopen` raises
`HTTPError`/`URLError` for unreachable hosts and HTTP-level failures, but a
malformed URL (unknown scheme, invalid host syntax) raises `ValueError`
(`http.client.InvalidURL` is a `ValueError`).  `decode("utf-8",
errors="ignore")` is total and never raises, so a successful read always
yields a string. -/

/-- Outcome of the `urlopen(url)` + `read()` + `decode` sequence. -/
inductive UrlopenOutcome where
  | ok (text : PyStr)
  | httpError
  | urlError
  | valueError
  deriving DecidableEq

/-- Python exception classes that can escape `fetch_gutenberg_text`. -/
inductive PyExc where
  | runtimeError
  | valueError
  deriving DecidableEq

/-- `fetch_gutenberg_text` (views.py lines 89-108): the `except (HTTPError,
URLError)` clause converts exactly those two exception classes into
`RuntimeError`; any other exception propagates unchanged. -/
def fetch_gutenberg_text : UrlopenOutcome → Except PyExc PyStr
  | .ok text => .ok text
  | .httpError => .error .runtimeError
  | .urlError => .error .runtimeError
  | .valueError => .error .valueError

/-! ## Persistence step of `book_search_view`

The save block at views.py lines 212-233 runs inside
`transaction.atomic()`: `get_or_create` by exact title (updating the URL on
an existing row), then `WordFrequency.objects.filter(book=book).delete()`,
then one `create` per `(word, freq)` pair.  Django's ORM and transaction
semantics are modelled as a pure transition on a database state: atomicity
makes the whole block a single state update. -/

/-- Database state: book rows `(title, gutenberg_url)` and word-frequency
rows `(book title, word, frequency)`. -/
structure DB where
  books : List (PyStr × PyStr)
  freqs : List (PyStr × PyStr × Nat)

/-- The transactional save block (views.py lines 214-233): upsert the book
row, delete all frequency rows of that book, insert the new ones. -/
def saveBookRecord (db : DB) (title url : PyStr) (top : List (PyStr × Nat)) : DB :=
  let books :=
    if db.books.any (fun b => b.1 = title) then
      db.books.map (fun b => if b.1 = title then (title, url) else b)
    else
      db.books ++ [(title, url)]
  let kept := db.freqs.filter (fun f => f.1 ≠ title)
  { books := books
    freqs := kept ++ top.map (fun wc => (title, wc.1, wc.2)) }

/-- Python's `" ".join(tokens)`: concatenate with a single space between
consecutive tokens (used by the idempotence property of the spec). -/
def joinSpace : List PyStr → PyStr
  | [] => []
  | [t] => t
  | t :: t2 :: ts => t ++ ' ' :: joinSpace (t2 :: ts)

/-- Index of the first occurrence of `w` in `tokens` (length of `tokens`
if absent). -/
def firstIdx : List PyStr → PyStr → Nat
  | [], _ => 0
  | x :: xs, w => if x = w then 0 else firstIdx xs w + 1

/-- The ranking order the spec promises for `most_common`: strictly
greater count first, and among equal counts the word first encountered in
the input comes first. -/
def rankedBefore (tokens : List PyStr) (p q : PyStr × Nat) : Prop :=
  q.2 < p.2 ∨ (p.2 = q.2 ∧ firstIdx tokens p.1 < firstIdx tokens q.1)

/-! ## Character-level lemmas -/

theorem toNat_ofNat_of_valid {n : Nat} (h : n.isValidChar) :
    (Char.ofNat n).toNat = n := by
  unfold Char.ofNat
  rw [dif_pos h]
  rfl

theorem isUpper_iff_toNat {c : Char} :
    c.isUpper = true ↔ 65 ≤ c.toNat ∧ c.toNat ≤ 90 := by
  unfold Char.isUpper
  rw [Bool.and_eq_true, decide_eq_true_iff, decide_eq_true_iff]
  exact ⟨fun ⟨h1, h2⟩ => ⟨h1, h2⟩, fun ⟨h1, h2⟩ => ⟨h1, h2⟩⟩

theorem isLower_iff_toNat {c : Char} :
    c.isLower = true ↔ 97 ≤ c.toNat ∧ c.toNat ≤ 122 := by
  unfold Char.isLower
  rw [Bool.and_eq_true, decide_eq_true_iff, decide_eq_true_iff]
  exact ⟨fun ⟨h1, h2⟩ => ⟨h1, h2⟩, fun ⟨h1, h2⟩ => ⟨h1, h2⟩⟩

theorem isAlpha_iff_toNat {c : Char} :
    c.isAlpha = true ↔ (65 ≤ c.toNat ∧ c.toNat ≤ 90) ∨ (97 ≤ c.toNat ∧ c.toNat ≤ 122) := by
  unfold Char.isAlpha
  rw [Bool.or_eq_true, isUpper_iff_toNat, isLower_iff_toNat]

theorem toLower_of_not_upper {c : Char} (h : ¬(65 ≤ c.toNat ∧ c.toNat ≤ 90)) :
    c.toLower = c := by
  unfold Char.toLower
  exact if_neg h

theorem toNat_toLower_of_upper {c : Char} (h : 65 ≤ c.toNat ∧ c.toNat ≤ 90) :
    c.toLower.toNat = c.toNat + 32 := by
  unfold Char.toLower
  rw [if_pos h]
  exact toNat_ofNat_of_valid (Or.inl (by omega))

/-- An alphabetic character in the image of `Char.toLower` is lowercase. -/
theorem isLower_toLower_of_isAlpha {d : Char} (h : (d.toLower).isAlpha = true) :
    (d.toLower).isLower = true := by
  by_cases hu : 65 ≤ d.toNat ∧ d.toNat ≤ 90
  · rw [isLower_iff_toNat, toNat_toLower_of_upper hu]
    omega
  · rw [toLower_of_not_upper hu] at h ⊢
    rcases isAlpha_iff_toNat.mp h with h' | h'
    · exact absurd h' hu
    · exact isLower_iff_toNat.mpr h'

/-- Lowercase characters are fixed points of `Char.toLower`. -/
theorem toLower_of_isLower {c : Char} (h : c.isLower = true) : c.toLower = c := by
  have := isLower_iff_toNat.mp h
  exact toLower_of_not_upper (by omega)

/-- No character of the replaced class is alphabetic, and none is a space. -/
theorem charsToReplace_not_alpha :
    ∀ c ∈ charsToReplace, c.isAlpha = false ∧ c ≠ ' ' := by decide

/-- Alphabetic characters are not split-whitespace. -/
theorem pyIsSpace_eq_false_of_isAlpha {c : Char} (h : c.isAlpha = true) :
    pyIsSpace c = false := by
  cases hs : pyIsSpace c with
  | false => rfl
  | true =>
    unfold pyIsSpace at hs
    simp only [Bool.or_eq_true, decide_eq_true_iff] at hs
    rcases hs with ((((rfl | rfl) | rfl) | rfl) | rfl) | rfl <;> simp_all

/-! ## Lemmas about the splitter -/

/-- Every character of every token of `pySplitAux s cur` comes from `s` or
from the pending token `cur`. -/
theorem mem_of_mem_pySplitAux :
    ∀ (s cur w : PyStr), w ∈ pySplitAux s cur → ∀ c ∈ w, c ∈ s ∨ c ∈ cur
  | [], cur, w, hw, c, hc => by
    unfold pySplitAux at hw
    split at hw
    · exact absurd hw (List.not_mem_nil w)
    · rw [List.mem_singleton] at hw
      subst hw
      exact Or.inr (List.mem_reverse.mp hc)
  | a :: s, cur, w, hw, c, hc => by
    unfold pySplitAux at hw
    split at hw
    · split at hw
      · rcases mem_of_mem_pySplitAux s [] w hw c hc with h | h
        · exact Or.inl (List.mem_cons_of_mem a h)
        · exact absurd h (List.not_mem_nil c)
      · rcases List.mem_cons.mp hw with rfl | hw'
        · exact Or.inr (List.mem_reverse.mp hc)
        · rcases mem_of_mem_pySplitAux s [] w hw' c hc with h | h
          · exact Or.inl (List.mem_cons_of_mem a h)
          · exact absurd h (List.not_mem_nil c)
    · rcases mem_of_mem_pySplitAux s (a :: cur) w hw c hc with h | h
      · exact Or.inl (List.mem_cons_of_mem a h)
      · rcases List.mem_cons.mp h with rfl | h'
        · exact Or.inl (List.mem_cons_self c s)
        · exact Or.inr h'

/-- The fold of single-character replacements is a pointwise replacement of
the whole class, provided the replacement target is not itself replaced. -/
theorem foldl_replace_eq_map (cs : List Char) (hsp : ' ' ∉ cs) :
    ∀ s : PyStr,
      cs.foldl (fun acc ch => pyReplaceChar ch acc) s =
        s.map (fun d => if d ∈ cs then ' ' else d) := by
  induction cs with
  | nil =>
    intro s
    simp [List.foldl_nil]
  | cons c cs ih =>
    intro s
    have hsp' : ' ' ∉ cs := fun h => hsp (List.mem_cons_of_mem c h)
    rw [List.foldl_cons, ih hsp', pyReplaceChar, List.map_map]
    apply List.map_congr_left
    intro d _
    by_cases hdc : d = c
    · subst hdc
      simp [hsp']
    · by_cases hdcs : d ∈ cs <;> simp [hdc, hdcs, Function.comp]

/-- `replaceAll` replaces exactly the characters of the fixed class by
spaces, pointwise. -/
theorem replaceAll_eq_map (s : PyStr) :
    replaceAll s = s.map (fun d => if d ∈ charsToReplace then ' ' else d) :=
  foldl_replace_eq_map charsToReplace (by decide) s

/-- Structure of `keepWord`: the three conjuncts of the comprehension's
condition. -/
theorem keepWord_eq_true_iff {w : PyStr} :
    keepWord w = true ↔
      (¬w.isEmpty = true ∧ ∀ c ∈ w, c.isAlpha = true) ∧ w ∉ STOPWORDS ∧ 1 < w.length := by
  unfold keepWord pyIsAlphaStr
  simp only [Bool.and_eq_true, Bool.not_eq_true', List.all_eq_true,
    decide_eq_true_iff, decide_eq_false_iff_not, Bool.not_eq_true]
  constructor
  · rintro ⟨⟨⟨h1, h2⟩, h3⟩, h4⟩
    exact ⟨⟨by simp [h1], h2⟩, h3, h4⟩
  · rintro ⟨⟨h1, h2⟩, h3, h4⟩
    exact ⟨⟨⟨by simpa using h1, h2⟩, h3⟩, h4⟩

/-! ## Lemmas about `dedupFirst` -/

theorem mem_of_mem_dedupFirstAux :
    ∀ (l seen : List PyStr) (x : PyStr), x ∈ dedupFirstAux l seen → x ∈ l
  | [], _, x, hx => absurd hx (List.not_mem_nil x)
  | w :: ws, seen, x, hx => by
    unfold dedupFirstAux at hx
    split at hx
    · exact List.mem_cons_of_mem w (mem_of_mem_dedupFirstAux ws seen x hx)
    · rcases List.mem_cons.mp hx with rfl | hx'
      · exact List.mem_cons_self x ws
      · exact List.mem_cons_of_mem w (mem_of_mem_dedupFirstAux ws (w :: seen) x hx')

theorem not_mem_seen_of_mem_dedupFirstAux :
    ∀ (l seen : List PyStr) (x : PyStr), x ∈ dedupFirstAux l seen → x ∉ seen
  | [], _, x, hx => absurd hx (List.not_mem_nil x)
  | w :: ws, seen, x, hx => by
    unfold dedupFirstAux at hx
    split at hx
    · exact not_mem_seen_of_mem_dedupFirstAux ws seen x hx
    · rcases List.mem_cons.mp hx with rfl | hx'
      · assumption
      · intro hxs
        exact not_mem_seen_of_mem_dedupFirstAux ws (w :: seen) x hx'
          (List.mem_cons_of_mem w hxs)

theorem mem_dedupFirstAux_of_mem :
    ∀ (l seen : List PyStr) (x : PyStr), x ∈ l → x ∉ seen → x ∈ dedupFirstAux l seen
  | [], _, x, hx, _ => absurd hx (List.not_mem_nil x)
  | w :: ws, seen, x, hx, hns => by
    unfold dedupFirstAux
    split
    · rcases List.mem_cons.mp hx with rfl | hx'
      · exact absurd (by assumption) hns
      · exact mem_dedupFirstAux_of_mem ws seen x hx' hns
    · rcases List.mem_cons.mp hx with rfl | hx'
      · exact List.mem_cons_self x _
      · by_cases hxw : x = w
        · subst hxw
          exact List.mem_cons_self x _
        · refine List.mem_cons_of_mem w (mem_dedupFirstAux_of_mem ws (w :: seen) x hx' ?_)
          intro hmem
          rcases List.mem_cons.mp hmem with h | h
          · exact hxw h
          · exact hns h

theorem nodup_dedupFirstAux :
    ∀ (l seen : List PyStr), (dedupFirstAux l seen).Nodup
  | [], _ => List.nodup_nil
  | w :: ws, seen => by
    unfold dedupFirstAux
    split
    · exact nodup_dedupFirstAux ws seen
    · refine List.nodup_cons.mpr ⟨?_, nodup_dedupFirstAux ws (w :: seen)⟩
      intro hmem
      exact not_mem_seen_of_mem_dedupFirstAux ws (w :: seen) w hmem
        (List.mem_cons_self w seen)

theorem mem_dedupFirst_iff {l : List PyStr} {x : PyStr} :
    x ∈ dedupFirst l ↔ x ∈ l :=
  ⟨mem_of_mem_dedupFirstAux l [] x,
   fun h => mem_dedupFirstAux_of_mem l [] x h (List.not_mem_nil x)⟩

theorem nodup_dedupFirst (l : List PyStr) : (dedupFirst l).Nodup :=
  nodup_dedupFirstAux l []

/-- `dedupFirst` has the same length as Mathlib's `dedup`: both enumerate
the distinct elements exactly once. -/
theorem length_dedupFirst (l : List PyStr) :
    (dedupFirst l).length = l.dedup.length := by
  rw [← List.toFinset_card_of_nodup (nodup_dedupFirst l),
    ← List.toFinset_card_of_nodup l.nodup_dedup]
  congr 1
  apply Finset.ext
  intro x
  rw [List.mem_toFinset, List.mem_toFinset, mem_dedupFirst_iff, List.mem_dedup]

/-! ## First-occurrence index and the ranking order -/

theorem firstIdx_cons_self {w : PyStr} {ws : List PyStr} :
    firstIdx (w :: ws) w = 0 := by
  have h : firstIdx (w :: ws) w = if w = w then 0 else firstIdx ws w + 1 := rfl
  rw [h, if_pos rfl]

theorem firstIdx_cons_ne {x w : PyStr} {ws : List PyStr} (h : x ≠ w) :
    firstIdx (w :: ws) x = firstIdx ws x + 1 := by
  have he : firstIdx (w :: ws) x = if w = x then 0 else firstIdx ws x + 1 := rfl
  rw [he, if_neg (fun heq => h heq.symm)]

/-- The keys emitted by `dedupFirstAux l seen` are in strictly increasing
order of first occurrence in `l`. -/
theorem pairwise_firstIdx_dedupFirstAux :
    ∀ (l seen : List PyStr),
      (dedupFirstAux l seen).Pairwise (fun a b => firstIdx l a < firstIdx l b)
  | [], _ => List.Pairwise.nil
  | w :: ws, seen => by
    unfold dedupFirstAux
    split
    · rename_i hw
      refine (pairwise_firstIdx_dedupFirstAux ws seen).imp_of_mem ?_
      intro a b ha hb hab
      have hane : a ≠ w := fun h =>
        not_mem_seen_of_mem_dedupFirstAux ws seen a ha (h ▸ hw)
      have hbne : b ≠ w := fun h =>
        not_mem_seen_of_mem_dedupFirstAux ws seen b hb (h ▸ hw)
      rw [firstIdx_cons_ne hane, firstIdx_cons_ne hbne]
      omega
    · rename_i hw
      rw [List.pairwise_cons]
      constructor
      · intro b hb
        have hbne : b ≠ w := fun h =>
          not_mem_seen_of_mem_dedupFirstAux ws (w :: seen) b hb
            (h ▸ List.mem_cons_self w seen)
        rw [firstIdx_cons_self, firstIdx_cons_ne hbne]
        omega
      · refine (pairwise_firstIdx_dedupFirstAux ws (w :: seen)).imp_of_mem ?_
        intro a b ha hb hab
        have hane : a ≠ w := fun h =>
          not_mem_seen_of_mem_dedupFirstAux ws (w :: seen) a ha
            (h ▸ List.mem_cons_self w seen)
        have hbne : b ≠ w := fun h =>
          not_mem_seen_of_mem_dedupFirstAux ws (w :: seen) b hb
            (h ▸ List.mem_cons_self w seen)
        rw [firstIdx_cons_ne hane, firstIdx_cons_ne hbne]
        omega

theorem pairwise_firstIdx_counterItems (tokens : List PyStr) :
    (counterItems tokens).Pairwise
      (fun p q => firstIdx tokens p.1 < firstIdx tokens q.1) := by
  unfold counterItems
  rw [List.pairwise_map]
  exact pairwise_firstIdx_dedupFirstAux tokens []

/-! ## Lemmas about the stable descending sort -/

theorem insertDesc_perm (x : PyStr × Nat) :
    ∀ l : List (PyStr × Nat), List.Perm (insertDesc x l) (x :: l)
  | [] => List.Perm.refl _
  | y :: ys => by
    unfold insertDesc
    split
    · exact List.Perm.refl _
    · exact ((insertDesc_perm x ys).cons y).trans (List.Perm.swap x y ys)

theorem sortDesc_perm :
    ∀ l : List (PyStr × Nat), List.Perm (sortDesc l) l
  | [] => List.Perm.refl _
  | x :: xs => (insertDesc_perm x (sortDesc xs)).trans ((sortDesc_perm xs).cons x)

/-- Descending counts are weakly decreasing along a `rankedBefore`-sorted
list; used to extend the head across an insertion point. -/
theorem rankedBefore_le {tokens : List PyStr} {p q : PyStr × Nat}
    (h : rankedBefore tokens p q) : q.2 ≤ p.2 := by
  rcases h with h | ⟨h, _⟩
  · omega
  · omega

/-- Inserting `x` keeps the list sorted, provided `x` occurs earlier in the
input than every entry of equal count already in the list. -/
theorem pairwise_insertDesc {tokens : List PyStr} (x : PyStr × Nat) :
    ∀ l : List (PyStr × Nat), l.Pairwise (rankedBefore tokens) →
      (∀ q ∈ l, q.2 = x.2 → firstIdx tokens x.1 < firstIdx tokens q.1) →
      (insertDesc x l).Pairwise (rankedBefore tokens)
  | [], _, _ => List.pairwise_cons.mpr ⟨fun q hq => absurd hq (List.not_mem_nil q), List.Pairwise.nil⟩
  | y :: ys, hp, hfi => by
    unfold insertDesc
    obtain ⟨hy, hys⟩ := List.pairwise_cons.mp hp
    split
    · rename_i hle
      rw [List.pairwise_cons]
      refine ⟨?_, hp⟩
      intro q hq
      have hqle : q.2 ≤ x.2 := by
        rcases List.mem_cons.mp hq with rfl | hq'
        · exact hle
        · exact le_trans (rankedBefore_le (hy q hq')) hle
      rcases Nat.lt_or_ge q.2 x.2 with hlt | hge
      · exact Or.inl hlt
      · have heq : q.2 = x.2 := le_antisymm hqle hge
        exact Or.inr ⟨heq.symm, hfi q hq heq⟩
    · rename_i hgt
      rw [List.pairwise_cons]
      constructor
      · intro q hq
        rcases List.mem_cons.mp ((insertDesc_perm x ys).mem_iff.mp hq) with rfl | hq'
        · exact Or.inl (by omega)
        · exact hy q hq'
      · exact pairwise_insertDesc x ys hys
          (fun q hq hq2 => hfi q (List.mem_cons_of_mem y hq) hq2)

/-- The stable sort of a list whose entries appear in strictly increasing
first-occurrence order is sorted for `rankedBefore`. -/
theorem pairwise_sortDesc {tokens : List PyStr} :
    ∀ l : List (PyStr × Nat),
      l.Pairwise (fun p q => firstIdx tokens p.1 < firstIdx tokens q.1) →
      (sortDesc l).Pairwise (rankedBefore tokens)
  | [], _ => List.Pairwise.nil
  | x :: xs, hp => by
    obtain ⟨hx, hxs⟩ := List.pairwise_cons.mp hp
    exact pairwise_insertDesc x (sortDesc xs) (pairwise_sortDesc xs hxs)
      (fun q hq _ => hx q ((sortDesc_perm xs).mem_iff.mp hq))

/-! ## Lemmas about `topWords` -/

theorem length_sortDesc (l : List (PyStr × Nat)) :
    (sortDesc l).length = l.length :=
  (sortDesc_perm l).length_eq

theorem topWords_pairwise (tokens : List PyStr) (limit : Nat) :
    (topWords tokens limit).Pairwise (rankedBefore tokens) :=
  (pairwise_sortDesc _ (pairwise_firstIdx_counterItems tokens)).sublist
    (List.take_sublist _ _)

theorem length_topWords (tokens : List PyStr) (limit : Nat) :
    (topWords tokens limit).length = min limit tokens.dedup.length := by
  unfold topWords
  rw [List.length_take, length_sortDesc, counterItems, List.length_map,
    length_dedupFirst]

theorem sortDesc_counterItems_length_le {tokens : List PyStr} {limit : Nat}
    (h : tokens.dedup.length ≤ limit) :
    topWords tokens limit = sortDesc (counterItems tokens) := by
  unfold topWords
  apply List.take_of_length_le
  rw [length_sortDesc, counterItems, List.length_map, length_dedupFirst]
  exact h

theorem mem_topWords_full {tokens : List PyStr} {limit : Nat}
    (h : tokens.dedup.length ≤ limit) (w : PyStr) :
    (∃ c, (w, c) ∈ topWords tokens limit) ↔ w ∈ tokens := by
  rw [sortDesc_counterItems_length_le h]
  constructor
  · rintro ⟨c, hc⟩
    have := (sortDesc_perm (counterItems tokens)).mem_iff.mp hc
    rw [counterItems] at this
    obtain ⟨a, ha, hae⟩ := List.mem_map.mp this
    have : a = w := congrArg Prod.fst hae
    subst this
    exact mem_dedupFirst_iff.mp ha
  · intro hw
    refine ⟨countOcc tokens w, ?_⟩
    apply (sortDesc_perm (counterItems tokens)).mem_iff.mpr
    rw [counterItems]
    exact List.mem_map.mpr ⟨w, mem_dedupFirst_iff.mpr hw, rfl⟩

theorem nodup_map_fst_topWords (tokens : List PyStr) (limit : Nat) :
    ((topWords tokens limit).map Prod.fst).Nodup := by
  unfold topWords
  rw [List.map_take]
  apply List.Nodup.sublist (List.take_sublist _ _)
  apply ((sortDesc_perm (counterItems tokens)).map Prod.fst).nodup_iff.mpr
  rw [counterItems, List.map_map]
  have : ((dedupFirst tokens).map (Prod.fst ∘ fun w => (w, countOcc tokens w)))
      = (dedupFirst tokens).map id :=
    List.map_congr_left (fun a _ => rfl)
  rw [this, List.map_id]
  exact nodup_dedupFirst tokens

/-! ## Counting lemmas -/

theorem countOcc_pos_of_mem {tokens : List PyStr} {w : PyStr} (h : w ∈ tokens) :
    1 ≤ countOcc tokens w := by
  unfold countOcc
  exact List.length_pos_of_mem (List.mem_filter.mpr ⟨h, by simp⟩)

theorem length_filter_partition {α : Type} (p : α → Bool) :
    ∀ l : List α, (l.filter p).length + (l.filter (fun x => !p x)).length = l.length
  | [] => rfl
  | a :: l => by
    cases hp : p a <;>
      simp [List.filter_cons, hp, ← length_filter_partition p l] <;> omega

/-- The occurrence counts over any duplicate-free enumeration of the
elements of `tokens` sum to the length of `tokens`. -/
theorem sum_countOcc_eq_length :
    ∀ (dd tokens : List PyStr), dd.Nodup → (∀ x, x ∈ dd ↔ x ∈ tokens) →
      (dd.map (fun w => countOcc tokens w)).sum = tokens.length
  | [], tokens, _, hmem => by
    have : tokens = [] :=
      List.eq_nil_iff_forall_not_mem.mpr
        (fun x hx => absurd ((hmem x).mpr hx) (List.not_mem_nil x))
    subst this
    rfl
  | a :: dd, tokens, hnd, hmem => by
    obtain ⟨hand, hddnd⟩ := List.nodup_cons.mp hnd
    have hmem' : ∀ x, x ∈ dd ↔ x ∈ tokens.filter (fun y => !decide (y = a)) := by
      intro x
      rw [List.mem_filter]
      constructor
      · intro hx
        have hxa : x ≠ a := fun h => hand (h ▸ hx)
        exact ⟨(hmem x).mp (List.mem_cons_of_mem a hx), by simp [hxa]⟩
      · rintro ⟨hx, hxa⟩
        have hxa' : x ≠ a := by simpa using hxa
        rcases List.mem_cons.mp ((hmem x).mpr hx) with rfl | h
        · exact absurd rfl hxa'
        · exact h
    have hcount : ∀ w ∈ dd,
        countOcc tokens w = countOcc (tokens.filter (fun y => !decide (y = a))) w := by
      intro w hw
      have hwa : w ≠ a := fun h => hand (h ▸ hw)
      unfold countOcc
      rw [List.filter_filter]
      congr 1
      apply List.filter_congr
      intro x _
      by_cases hxw : x = w
      · subst hxw
        simp [hwa]
      · simp [hxw]
    rw [List.map_cons, List.sum_cons, List.map_congr_left hcount,
      sum_countOcc_eq_length dd _ hddnd hmem']
    have hpart := length_filter_partition (fun y => decide (y = a)) tokens
    have hco : countOcc tokens a = (tokens.filter (fun y => decide (y = a))).length := rfl
    have : (tokens.filter (fun y => !decide (y = a))).length
        = (tokens.filter (fun x => !(fun y => decide (y = a)) x)).length := rfl
    omega

/-- With an untruncated limit, the ranked counts are the exact occurrence
counts and sum to the token count. -/
theorem topWords_counts_support {tokens : List PyStr} {limit : Nat}
    (h : tokens.dedup.length ≤ limit) :
    (∀ p ∈ topWords tokens limit, p.2 = countOcc tokens p.1 ∧ 1 ≤ p.2)
      ∧ ((topWords tokens limit).map Prod.snd).sum = tokens.length := by
  rw [sortDesc_counterItems_length_le h]
  constructor
  · intro p hp
    have hpm := (sortDesc_perm (counterItems tokens)).mem_iff.mp hp
    rw [counterItems] at hpm
    obtain ⟨a, ha, hae⟩ := List.mem_map.mp hpm
    subst hae
    exact ⟨rfl, countOcc_pos_of_mem (mem_dedupFirst_iff.mp ha)⟩
  · rw [((sortDesc_perm (counterItems tokens)).map Prod.snd).sum_eq]
    rw [counterItems, List.map_map]
    have : ((dedupFirst tokens).map (Prod.snd ∘ fun w => (w, countOcc tokens w)))
        = (dedupFirst tokens).map (fun w => countOcc tokens w) :=
      List.map_congr_left (fun a _ => rfl)
    rw [this]
    exact sum_countOcc_eq_length (dedupFirst tokens) tokens
      (nodup_dedupFirst tokens) (fun x => mem_dedupFirst_iff)

/-! ## Token well-formedness (shared helper) -/

/-- Every token produced by `clean_text_to_words` passes `keepWord`, and
all its characters are lowercase letters (the pipeline lowercases before
filtering, and the filter keeps alphabetic tokens only). -/
theorem clean_token_props (text w : PyStr) (hw : w ∈ clean_text_to_words text) :
    keepWord w = true ∧ ∀ c ∈ w, c.isLower = true := by
  unfold clean_text_to_words at hw
  rw [List.mem_filter] at hw
  obtain ⟨hmem, hkeep⟩ := hw
  refine ⟨hkeep, ?_⟩
  obtain ⟨⟨_, halpha⟩, _, _⟩ := keepWord_eq_true_iff.mp hkeep
  intro c hc
  have hcs := mem_of_mem_pySplitAux _ [] w hmem c hc
  rcases hcs with hcs | hcs
  swap
  · exact absurd hcs (List.not_mem_nil c)
  rw [replaceAll_eq_map] at hcs
  unfold pyLower at hcs
  rw [List.map_map] at hcs
  obtain ⟨d, _, hd⟩ := List.mem_map.mp hcs
  have hca := halpha c hc
  by_cases hrep : Char.toLower d ∈ charsToReplace
  · exfalso
    have hsp : c = ' ' := by simpa [Function.comp, hrep] using hd.symm
    subst hsp
    exact absurd hca (by decide)
  · have hcd : c = Char.toLower d := by simpa [Function.comp, hrep] using hd.symm
    subst hcd
    exact isLower_toLower_of_isAlpha hca

/-! ## Claim theorems -/

/-- C1: for every token sequence and every limit, `topWords` (the
`Counter.most_common` step of `compute_top_words`) returns entries ordered
primarily by descending count and secondarily by first-occurrence order of
the word in the input among equal counts; in particular
`topWords(["a","b","a","c","b","a"], 2) = [("a",3), ("b",2)]`. -/
theorem topWords_sorted_by_count_then_first_occurrence :
    (∀ (tokens : List PyStr) (limit : Nat),
        (topWords tokens limit).Pairwise (rankedBefore tokens))
    ∧ topWords ["a".data, "b".data, "a".data, "c".data, "b".data, "a".data] 2
        = [("a".data, 3), ("b".data, 2)] :=
  ⟨topWords_pairwise, by decide⟩

/-- C2: every token returned by `clean_text_to_words` consists entirely of
alphabetic characters, has length at least 2, is lowercase, and is not a
stopword. -/
theorem clean_text_to_words_token_invariants (text w : PyStr)
    (hw : w ∈ clean_text_to_words text) :
    (∀ c ∈ w, c.isAlpha = true) ∧ 2 ≤ w.length
      ∧ (∀ c ∈ w, c.isLower = true) ∧ w ∉ STOPWORDS := by
  obtain ⟨hkeep, hlower⟩ := clean_token_props text w hw
  obtain ⟨⟨_, halpha⟩, hstop, hlen⟩ := keepWord_eq_true_iff.mp hkeep
  exact ⟨halpha, hlen, hlower, hstop⟩

/-- Witness for C2 at a concrete input. -/
theorem clean_text_to_words_token_invariants_witness :
    (∀ c ∈ "hello".data, c.isAlpha = true) ∧ 2 ≤ "hello".data.length
      ∧ (∀ c ∈ "hello".data, c.isLower = true) ∧ "hello".data ∉ STOPWORDS :=
  clean_text_to_words_token_invariants "Hello, world!".data "hello".data (by decide)

/-- C3: `clean_text_to_words` lowercases the input, replaces each character
of the fixed class (`,.;:!?"'()[]{}-_*/\` plus newline, carriage return and
tab) with a space, splits on whitespace runs, and emits the surviving
tokens in input order with no sorting or deduplication; in particular
`normalize("The Quick Brown Fox") = ["quick","brown","fox"]`. -/
theorem clean_text_to_words_pipeline :
    (∀ text : PyStr,
        clean_text_to_words text
          = (pySplit (replaceAll (pyLower text))).filter keepWord)
    ∧ (∀ text : PyStr,
        replaceAll text
          = text.map (fun d => if d ∈ charsToReplace then ' ' else d))
    ∧ (∀ text : PyStr,
        List.Sublist (clean_text_to_words text)
          (pySplit (replaceAll (pyLower text))))
    ∧ clean_text_to_words "The Quick Brown Fox".data
        = ["quick".data, "brown".data, "fox".data] :=
  ⟨fun _ => rfl, replaceAll_eq_map,
   fun _ => List.filter_sublist _, by decide⟩

/-- C4: the result of `topWords` has length `min limit (distinct words)`:
it is empty at limit 0, never exceeds `limit` entries, and when `limit`
is at least the number of distinct words every word of the input appears
in the (fully ranked) result. -/
theorem topWords_length_spec :
    (∀ (tokens : List PyStr) (limit : Nat),
        (topWords tokens limit).length = min limit tokens.dedup.length)
    ∧ (∀ tokens : List PyStr, topWords tokens 0 = [])
    ∧ (∀ (tokens : List PyStr) (limit : Nat), tokens.dedup.length ≤ limit →
        ∀ w, (∃ c, (w, c) ∈ topWords tokens limit) ↔ w ∈ tokens) :=
  ⟨length_topWords, fun _ => rfl, fun _ _ h => mem_topWords_full h⟩

/-- Witness for C4's untruncated clause at a concrete input. -/
theorem topWords_length_spec_witness :
    ["a".data, "b".data, "a".data].dedup.length ≤ 5
      ∧ ((∃ c, ("b".data, c) ∈ topWords ["a".data, "b".data, "a".data] 5)
          ↔ "b".data ∈ ["a".data, "b".data, "a".data]) :=
  ⟨by decide,
   topWords_length_spec.2.2 ["a".data, "b".data, "a".data] 5 (by decide) "b".data⟩

/-- C5: `clean_text_to_words` and `topWords` are total functions of their
well-typed inputs — they always return a result (they are plain `def`s
with no error branch) — and the empty string yields the empty token list. -/
theorem core_never_fails :
    clean_text_to_words [] = []
    ∧ (∀ text : PyStr, ∃ r, clean_text_to_words text = r)
    ∧ (∀ (tokens : List PyStr) (limit : Nat), ∃ r, topWords tokens limit = r) :=
  ⟨rfl, fun text => ⟨clean_text_to_words text, rfl⟩,
   fun tokens limit => ⟨topWords tokens limit, rfl⟩⟩

/-- C10: with an untruncated limit, the counts returned by `topWords` are
the exact occurrence counts of each word (each at least 1) and they sum to
the length of the token list. -/
theorem topWords_counts_exact (tokens : List PyStr) (limit : Nat)
    (h : tokens.dedup.length ≤ limit) :
    (∀ p ∈ topWords tokens limit, p.2 = countOcc tokens p.1 ∧ 1 ≤ p.2)
      ∧ ((topWords tokens limit).map Prod.snd).sum = tokens.length :=
  topWords_counts_support h

/-- Witness for C10 at a concrete input. -/
theorem topWords_counts_exact_witness :
    ["a".data, "b".data, "a".data].dedup.length ≤ 7
      ∧ ((∀ p ∈ topWords ["a".data, "b".data, "a".data] 7,
            p.2 = countOcc ["a".data, "b".data, "a".data] p.1 ∧ 1 ≤ p.2)
          ∧ ((topWords ["a".data, "b".data, "a".data] 7).map Prod.snd).sum
              = ["a".data, "b".data, "a".data].length) :=
  ⟨by decide, topWords_counts_exact ["a".data, "b".data, "a".data] 7 (by decide)⟩

/-! ## Idempotence of normalization -/

theorem map_eq_self_of_fixed {l : List Char} {f : Char → Char}
    (h : ∀ c ∈ l, f c = c) : l.map f = l :=
  (List.map_congr_left h).trans (List.map_id l)

theorem isAlpha_of_isLower {c : Char} (h : c.isLower = true) :
    c.isAlpha = true := by
  unfold Char.isAlpha
  rw [h, Bool.or_true]

theorem mem_joinSpace :
    ∀ (toks : List PyStr) (c : Char),
      c ∈ joinSpace toks → c = ' ' ∨ ∃ w ∈ toks, c ∈ w
  | [], c, hc => absurd hc (List.not_mem_nil c)
  | [t], c, hc => Or.inr ⟨t, List.mem_cons_self t [], hc⟩
  | t :: t2 :: ts, c, hc => by
    have hj : joinSpace (t :: t2 :: ts) = t ++ ' ' :: joinSpace (t2 :: ts) := rfl
    rw [hj] at hc
    rcases List.mem_append.mp hc with hc' | hc'
    · exact Or.inr ⟨t, List.mem_cons_self t _, hc'⟩
    · rcases List.mem_cons.mp hc' with rfl | hc''
      · exact Or.inl rfl
      · rcases mem_joinSpace (t2 :: ts) c hc'' with h | ⟨w, hw, hcw⟩
        · exact Or.inl h
        · exact Or.inr ⟨w, List.mem_cons_of_mem t hw, hcw⟩

theorem pySplitAux_cons_nonspace {a : Char} (s cur : PyStr)
    (ha : pyIsSpace a = false) :
    pySplitAux (a :: s) cur = pySplitAux s (a :: cur) := by
  have h : pySplitAux (a :: s) cur
      = if pyIsSpace a then
          (if cur = [] then pySplitAux s [] else cur.reverse :: pySplitAux s [])
        else pySplitAux s (a :: cur) := rfl
  rw [h, ha]
  rfl

theorem pySplitAux_cons_space {a : Char} (s cur : PyStr)
    (ha : pyIsSpace a = true) :
    pySplitAux (a :: s) cur
      = if cur = [] then pySplitAux s [] else cur.reverse :: pySplitAux s [] := by
  have h : pySplitAux (a :: s) cur
      = if pyIsSpace a then
          (if cur = [] then pySplitAux s [] else cur.reverse :: pySplitAux s [])
        else pySplitAux s (a :: cur) := rfl
  rw [h, ha]
  rfl

theorem pySplitAux_append_nonspace :
    ∀ (t s cur : PyStr), (∀ c ∈ t, pyIsSpace c = false) →
      pySplitAux (t ++ s) cur = pySplitAux s (t.reverse ++ cur)
  | [], s, cur, _ => by simp
  | a :: t, s, cur, h => by
    rw [List.cons_append,
      pySplitAux_cons_nonspace _ _ (h a (List.mem_cons_self a t)),
      pySplitAux_append_nonspace t s (a :: cur)
        (fun c hc => h c (List.mem_cons_of_mem a hc))]
    simp [List.reverse_cons, List.append_assoc]

theorem pySplitAux_all_nonspace (t cur : PyStr)
    (h : ∀ c ∈ t, pyIsSpace c = false) :
    pySplitAux t cur = pySplitAux [] (t.reverse ++ cur) := by
  have happ := pySplitAux_append_nonspace t [] cur h
  rwa [List.append_nil] at happ

/-- Splitting the space-joined list of nonempty whitespace-free tokens
recovers exactly those tokens. -/
theorem pySplit_joinSpace :
    ∀ toks : List PyStr,
      (∀ t ∈ toks, t ≠ [] ∧ ∀ c ∈ t, pyIsSpace c = false) →
      pySplit (joinSpace toks) = toks
  | [], _ => rfl
  | [t], h => by
    obtain ⟨hne, hns⟩ := h t (List.mem_cons_self t [])
    show pySplitAux (joinSpace [t]) [] = [t]
    have hj : joinSpace [t] = t := rfl
    rw [hj, pySplitAux_all_nonspace t [] hns, List.append_nil]
    have hrne : t.reverse ≠ [] := by simp [hne]
    show (if t.reverse = [] then [] else [t.reverse.reverse]) = [t]
    rw [if_neg hrne, List.reverse_reverse]
  | t :: t2 :: ts, h => by
    obtain ⟨hne, hns⟩ := h t (List.mem_cons_self t _)
    have hrest : ∀ x ∈ t2 :: ts, x ≠ [] ∧ ∀ c ∈ x, pyIsSpace c = false :=
      fun x hx => h x (List.mem_cons_of_mem t hx)
    have hj : joinSpace (t :: t2 :: ts) = t ++ ' ' :: joinSpace (t2 :: ts) := rfl
    show pySplitAux (joinSpace (t :: t2 :: ts)) [] = _
    rw [hj, pySplitAux_append_nonspace t _ [] hns, List.append_nil,
      pySplitAux_cons_space _ _ (by decide)]
    have hrne : t.reverse ≠ [] := by simp [hne]
    rw [if_neg hrne, List.reverse_reverse]
    exact congrArg (t :: ·) (pySplit_joinSpace (t2 :: ts) hrest)

/-- C6: `clean_text_to_words` is idempotent — normalizing the space-joined
output of a normalization yields the same token sequence. -/
theorem clean_text_to_words_idempotent (text : PyStr) :
    clean_text_to_words (joinSpace (clean_text_to_words text))
      = clean_text_to_words text := by
  have hprops : ∀ w ∈ clean_text_to_words text,
      keepWord w = true ∧ ∀ c ∈ w, c.isLower = true :=
    fun w hw => clean_token_props text w hw
  have hchar : ∀ c ∈ joinSpace (clean_text_to_words text),
      c.isLower = true ∨ c = ' ' := by
    intro c hc
    rcases mem_joinSpace _ c hc with rfl | ⟨w, hw, hcw⟩
    · exact Or.inr rfl
    · exact Or.inl ((hprops w hw).2 c hcw)
  have hlower : pyLower (joinSpace (clean_text_to_words text))
      = joinSpace (clean_text_to_words text) := by
    apply map_eq_self_of_fixed
    intro c hc
    rcases hchar c hc with hl | rfl
    · exact toLower_of_isLower hl
    · decide
  have hrepl : replaceAll (joinSpace (clean_text_to_words text))
      = joinSpace (clean_text_to_words text) := by
    rw [replaceAll_eq_map]
    apply map_eq_self_of_fixed
    intro c hc
    have hnotin : c ∉ charsToReplace := by
      intro hin
      obtain ⟨hna, hnsp⟩ := charsToReplace_not_alpha c hin
      rcases hchar c hc with hl | rfl
      · rw [isAlpha_of_isLower hl] at hna
        exact absurd hna (by decide)
      · exact hnsp rfl
    rw [if_neg hnotin]
  have hsplit : pySplit (joinSpace (clean_text_to_words text))
      = clean_text_to_words text := by
    apply pySplit_joinSpace
    intro t ht
    obtain ⟨hkeep, _⟩ := hprops t ht
    obtain ⟨⟨hne, halpha⟩, _, _⟩ := keepWord_eq_true_iff.mp hkeep
    refine ⟨?_, fun c hc => pyIsSpace_eq_false_of_isAlpha (halpha c hc)⟩
    intro h0
    subst h0
    exact hne rfl
  show (pySplit (replaceAll (pyLower (joinSpace (clean_text_to_words text))))).filter
      keepWord = clean_text_to_words text
  rw [hlower, hrepl, hsplit]
  exact List.filter_eq_self.mpr (fun w hw => (hprops w hw).1)

/-! ## Title extraction lemmas -/

theorem findTitle_of_no_match :
    ∀ lines : List PyStr, (∀ l ∈ lines, startsTitle l = false) →
      findTitle lines = "Unknown Title".data
  | [], _ => rfl
  | line :: rest, h => by
    have hc : startsTitle line = false := h line (List.mem_cons_self line rest)
    show (if startsTitle line then afterFirstColonStripped line else findTitle rest)
        = "Unknown Title".data
    rw [hc]
    show findTitle rest = "Unknown Title".data
    exact findTitle_of_no_match rest (fun l hl => h l (List.mem_cons_of_mem line hl))

theorem findTitle_first_match :
    ∀ (pre : List PyStr) (line : PyStr) (post : List PyStr),
      (∀ l ∈ pre, startsTitle l = false) → startsTitle line = true →
      findTitle (pre ++ line :: post) = afterFirstColonStripped line
  | [], line, post, _, hl => by
    show (if startsTitle line then afterFirstColonStripped line else findTitle post)
        = afterFirstColonStripped line
    rw [hl]
    rfl
  | p :: pre, line, post, h, hl => by
    have hc : startsTitle p = false := h p (List.mem_cons_self p pre)
    show (if startsTitle p then afterFirstColonStripped p
        else findTitle (pre ++ line :: post)) = afterFirstColonStripped line
    rw [hc]
    show findTitle (pre ++ line :: post) = afterFirstColonStripped line
    exact findTitle_first_match pre line post
      (fun l hl' => h l (List.mem_cons_of_mem p hl')) hl

/-- C7: `extract_title_from_gutenberg` scans the lines of the text in
order; the first line whose case-insensitive prefix is `"title:"` yields
the trimmed remainder of that line after its first colon, and if no line
matches the fixed fallback `"Unknown Title"` is returned. -/
theorem extract_title_first_title_line :
    (∀ text : PyStr, (∀ l ∈ splitlines text, startsTitle l = false) →
        extract_title_from_gutenberg text = "Unknown Title".data)
    ∧ (∀ (text : PyStr) (pre : List PyStr) (line : PyStr) (post : List PyStr),
        splitlines text = pre ++ line :: post →
        (∀ l ∈ pre, startsTitle l = false) → startsTitle line = true →
        extract_title_from_gutenberg text = afterFirstColonStripped line) := by
  constructor
  · intro text h
    exact findTitle_of_no_match _ h
  · intro text pre line post hsplit hpre hline
    unfold extract_title_from_gutenberg
    rw [hsplit]
    exact findTitle_first_match pre line post hpre hline

/-- Witness for C7 at a concrete document. -/
theorem extract_title_first_title_line_witness :
    extract_title_from_gutenberg "foo\nTitle: Moby Dick\nend".data
      = "Moby Dick".data :=
  extract_title_first_title_line.2 "foo\nTitle: Moby Dick\nend".data
    ["foo".data] "Title: Moby Dick".data ["end".data]
    (by decide) (by decide) (by decide)

/-! ## Fetch error routing -/

/-- Counterexample to C8 as stated: a malformed URL makes `urlopen` raise
`ValueError`, which the `except (HTTPError, URLError)` clause does not
catch, so an error other than `RuntimeError` escapes
`fetch_gutenberg_text`. -/
theorem fetch_single_error_cex :
    ¬ ∀ r : UrlopenOutcome,
        (∃ s, fetch_gutenberg_text r = .ok s)
          ∨ fetch_gutenberg_text r = .error .runtimeError := by
  intro h
  rcases h .valueError with ⟨s, hs⟩ | hbad
  · exact absurd hs (by simp [fetch_gutenberg_text])
  · exact absurd hbad (by simp [fetch_gutenberg_text])

/-- C8 amended: network-level failures (`HTTPError`, `URLError`) are both
collapsed into the single `RuntimeError`; a successful read always decodes
(decode failures are impossible since errors are ignored); but a malformed
URL's `ValueError` escapes unconverted. -/
theorem fetch_error_routing :
    (∀ t : PyStr, fetch_gutenberg_text (.ok t) = .ok t)
    ∧ fetch_gutenberg_text .httpError = .error .runtimeError
    ∧ fetch_gutenberg_text .urlError = .error .runtimeError
    ∧ fetch_gutenberg_text .valueError = .error .valueError :=
  ⟨fun _ => rfl, rfl, rfl, rfl⟩

/-! ## Persistence step -/

/-- C9: the transactional save block replaces all prior frequency rows of
the saved book with the newly computed list, leaves other books' rows
unchanged, and stores at most one row per distinct word for the book. -/
theorem saveBookRecord_replaces_frequencies (db : DB) (title url : PyStr)
    (tokens : List PyStr) (limit : Nat) :
    ((saveBookRecord db title url (topWords tokens limit)).freqs.filter
        (fun f => decide (f.1 = title))).map (fun f => (f.2.1, f.2.2))
      = topWords tokens limit
    ∧ (saveBookRecord db title url (topWords tokens limit)).freqs.filter
        (fun f => decide (f.1 ≠ title))
      = db.freqs.filter (fun f => decide (f.1 ≠ title))
    ∧ (((saveBookRecord db title url (topWords tokens limit)).freqs.filter
        (fun f => decide (f.1 = title))).map (fun f => f.2.1)).Nodup := by
  have hfreqs : (saveBookRecord db title url (topWords tokens limit)).freqs
      = db.freqs.filter (fun f => decide (f.1 ≠ title))
        ++ (topWords tokens limit).map (fun wc => (title, wc.1, wc.2)) := rfl
  have hkept : (db.freqs.filter (fun f => decide (f.1 ≠ title))).filter
      (fun f => decide (f.1 = title)) = [] := by
    apply List.filter_eq_nil_iff.mpr
    intro a ha
    have hane := of_decide_eq_true (List.mem_filter.mp ha).2
    simp [hane]
  have hnew : ((topWords tokens limit).map (fun wc => (title, wc.1, wc.2))).filter
      (fun f => decide (f.1 = title)) =
        (topWords tokens limit).map (fun wc => (title, wc.1, wc.2)) := by
    apply List.filter_eq_self.mpr
    intro a ha
    obtain ⟨wc, _, hwc⟩ := List.mem_map.mp ha
    subst hwc
    simp
  have hkeptne : (db.freqs.filter (fun f => decide (f.1 ≠ title))).filter
      (fun f => decide (f.1 ≠ title)) =
        db.freqs.filter (fun f => decide (f.1 ≠ title)) := by
    apply List.filter_eq_self.mpr
    intro a ha
    exact (List.mem_filter.mp ha).2
  have hnewne : ((topWords tokens limit).map (fun wc => (title, wc.1, wc.2))).filter
      (fun f => decide (f.1 ≠ title)) = [] := by
    apply List.filter_eq_nil_iff.mpr
    intro a ha
    obtain ⟨wc, _, hwc⟩ := List.mem_map.mp ha
    subst hwc
    simp
  refine ⟨?_, ?_, ?_⟩
  · rw [hfreqs, List.filter_append, hkept, hnew, List.nil_append, List.map_map]
    have hid : ((topWords tokens limit).map
        ((fun f : PyStr × PyStr × Nat => (f.2.1, f.2.2)) ∘ fun wc => (title, wc.1, wc.2)))
        = (topWords tokens limit).map id :=
      List.map_congr_left (fun a _ => rfl)
    rw [hid, List.map_id]
  · rw [hfreqs, List.filter_append, hkeptne, hnewne, List.append_nil]
  · rw [hfreqs, List.filter_append, hkept, hnew, List.nil_append, List.map_map]
    have hid : ((topWords tokens limit).map
        ((fun f : PyStr × PyStr × Nat => f.2.1) ∘ fun wc => (title, wc.1, wc.2)))
        = (topWords tokens limit).map Prod.fst :=
      List.map_congr_left (fun a _ => rfl)
    rw [hid]
    exact nodup_map_fst_topWords tokens limit

end Gutenberg

-- Concrete evaluations of the embedded pipeline.
example : Gutenberg.clean_text_to_words "The Quick Brown Fox".data =
    ["quick".data, "brown".data, "fox".data] := by decide

example : Gutenberg.clean_text_to_words "".data = [] := by decide

example : Gutenberg.topWords ["a".data, "b".data, "a".data, "c".data, "b".data, "a".data] 2 =
    [("a".data, 3), ("b".data, 2)] := by decide

example : Gutenberg.compute_top_words "cat dog cat bird dog cat!".data 2 =
    [("cat".data, 3), ("dog".data, 2)] := by decide
